import Mathlib

/-
  Verification development for the TiffLzwDecoder repository.

  The repository contains several variants of a TIFF strip decoder for
  LZW compression with the horizontal-differencing ("predictor") filter.
  Two variants are embedded here, translated statement by statement from
  the C++ sources:

  * `TiffLzw.V3.decompressLZW` — the third variant in src/main.cpp
    (the `bool decompressLZW(std::vector<char>&, std::vector<char>&)`
    with the compile-time `predictor` flag and the `maxCode` guard on the
    code-width bump).  The file-level configuration constants `predictor`
    and `bytesPerRow` are passed as parameters.

  * `TiffLzw.P0.decompressLZW` — the first variant in
    src/unnamed/part_000 (the `void decompressLZW` using the `dict`
    array, the `prev[3]` circular predictor buffer and the
    `psLen && nextCode <= MAXCODE` insertion guard, MAXCODE = 4093).

  Modelling conventions (stated once, used throughout):
  - bytes are `Nat` values; reads from the input reduce the byte
    `% 256` (the C++ casts through `uint8_t`); byte additions are
    `% 256` (C++ `char` wraparound).
  - the C++ string arena (`strings`/`s[4096]`+`sEnd`, resp. the
    `dict` array of 32-byte slots) together with the separate length
    array `sLen` is modelled as a single table `Nat → List Nat`
    mapping a code to its byte string; a table entry written with
    length L and L bytes corresponds to a list of those L bytes.
    Entries never written (uninitialized memory in the C++) are `[]`
    and are not relied upon by any proof below.
  - the output counter `n` always equals the number of bytes written
    so far, so it is represented by `out.length` where `out` is the
    list of bytes written through the output pointer, in order.
  - a read of an input byte past the end of the input buffer is
    undefined behavior in the C++; the model stops at that point and
    records it with the `ExitReason.overread` marker.  No theorem
    below relies on the state after such a read.
-/

namespace TiffLzw

/-- Functional update of one slot of a code table. -/
def updTable (t : Nat → List Nat) (k : Nat) (v : List Nat) : Nat → List Nat :=
  fun j => if j = k then v else t j

/-- How a decode run ended: by reading `EOF_CODE` (the `return ret`
    inside the loop), by the `while` guard finding no input left, or by
    the C++ reading past the end of the input buffer (undefined
    behavior, modelled as a stop). -/
inductive ExitReason where
  | eof
  | inputDone
  | overread
  deriving DecidableEq, Repr

/-- Result of a decode run: the bytes written through the output
    pointer, how the run ended, and the C++ return value `ret`
    (which the source initializes to `false` and never changes). -/
structure Result where
  out : List Nat
  reason : ExitReason
  ret : Bool
  deriving DecidableEq, Repr

namespace V3

/-- Decoder state of the third `decompressLZW` variant in src/main.cpp
    (locals of the function, minus the arena bookkeeping: see the
    modelling conventions at the top of the file). -/
structure St where
  s : Nat → List Nat
  ps : List Nat
  nextCode : Nat
  iBuf : Nat
  nBits : Nat
  codeBits : Nat
  nextBump : Nat
  mask : Nat
  out : List Nat

/-- Initial state: literal strings `s[i] = i` for `i < 256`,
    `strings[256] = strings[257] = 0` (never emitted: the two reserved
    codes are intercepted before any table access), `nextCode = 258`,
    `codeBits = 9`, `nextBump = 511`, `mask = (1 << 9) - 1`. -/
def initSt : St where
  s := fun i => if i < 256 then [i] else []
  ps := []
  nextCode := 258
  iBuf := 0
  nBits := 0
  codeBits := 9
  nextBump := 511
  mask := 511
  out := []

/-- The `GetNextCode` block at the top of the loop: shift one input
    byte into `iBuf` unconditionally, a second one if `nBits` is still
    short of `codeBits`, then extract the top `codeBits` bits.
    Returns `(code, iBuf, nBits, rest)`; `none` models the C++ reading
    the second byte past the end of the input buffer (undefined
    behavior). -/
def getNextCode (codeBits mask iBuf nBits b : Nat) (in1 : List Nat) :
    Option (Nat × Nat × Nat × List Nat) :=
  let iBuf1 := (iBuf * 256 + b % 256) % 2 ^ 32
  let nBits1 := nBits + 8
  if nBits1 < codeBits then
    match in1 with
    | [] => none
    | b2 :: in2 =>
      let iBuf2 := (iBuf1 * 256 + b2 % 256) % 2 ^ 32
      let nBits2 := nBits1 + 8
      some ((iBuf2 >>> (nBits2 - codeBits)) &&& mask, iBuf2, nBits2 - codeBits, in2)
  else
    some ((iBuf1 >>> (nBits1 - codeBits)) &&& mask, iBuf1, nBits1 - codeBits, in1)

/-- The `CLEAR_CODE` branch: reset width, mask, bump threshold,
    `nextCode` and the previous string.  The table contents are kept
    (the C++ only rewinds the arena pointer `sEnd`; stale entries
    remain readable until overwritten). -/
def clearReset (st : St) : St :=
  { st with codeBits := 9, mask := 511, nextBump := 511, nextCode := 258, ps := [] }

/-- The `code == nextCode` branch: store `prevString ++ prevString[0]`
    at `s[code]` (`sLen[code] = psLen + 1`).  The switch on `psLen` in
    the C++ is an unrolled byte copy of `ps`. -/
def pendingInsert (st : St) (code : Nat) : St :=
  { st with s := updTable st.s code (st.ps ++ [st.ps.headD 0]) }

/-- One iteration of the predictor output loop: at a row position
    below 3 the byte is copied as-is, otherwise the decoded byte is
    added to the output byte written 3 positions earlier
    (`*(out - 3)`), with `char` wraparound. -/
def emitPredByte (bytesPerRow : Nat) (out : List Nat) (v : Nat) : List Nat :=
  if out.length % bytesPerRow < 3 then out ++ [v]
  else out ++ [(v + out.getD (out.length - 3) 0) % 256]

/-- The full predictor output loop over a code's string. -/
def emitPred (bytesPerRow : Nat) (out : List Nat) (vs : List Nat) : List Nat :=
  vs.foldl (emitPredByte bytesPerRow) out

/-- Output phase: the `if (predictor)` / `else` pair of loops writing
    `s[code]` to the output, filtered or plain. -/
def emitPhase (predictor : Bool) (bytesPerRow : Nat) (st : St) (code : Nat) : St :=
  if predictor then { st with out := emitPred bytesPerRow st.out (st.s code) }
  else { st with out := st.out ++ st.s code }

/-- Insertion phase `if (psLen/* && nextCode <= MAXCODE*/)`: append
    `prevString ++ s[code][0]` at `nextCode` and increment it.  Note
    that the `MAXCODE` guard is commented out in the source, so the
    insertion is unconditional whenever `psLen` is nonzero. -/
def insertPhase (st : St) (code : Nat) : St :=
  if st.ps = [] then st
  else
    { st with
      s := updTable st.s st.nextCode (st.ps ++ [(st.s code).headD 0])
      nextCode := st.nextCode + 1 }

/-- The `codeBits change` block at the bottom of the loop:
    at `nextCode == nextBump`, widen below `maxCode` (4095), fall
    through at exactly `maxCode` (the `continue`), and otherwise take
    the reset branch (shown unreachable by `claim_C8`). -/
def bump (st : St) : St :=
  if st.nextCode = st.nextBump then
    if st.nextCode < 4095 then
      { st with
        nextBump := 2 * st.nextBump + 1
        codeBits := st.codeBits + 1
        mask := 2 ^ (st.codeBits + 1) - 1 }
    else if st.nextCode = 4095 then st
    else
      { st with codeBits := 9, mask := 511, nextBump := 511, nextCode := 258, ps := [] }
  else st

/-- Outcome of one loop iteration: either continue with a new state
    and the remaining input, or leave the loop with a `Result`. -/
inductive StepOut where
  | cont (st : St) (rest : List Nat)
  | stop (r : Result)

/-- Resolution of a non-special code: the pending insertion when
    `code == nextCode`, the output phase, the guarded-by-`psLen`
    insertion, and the previous-string update
    (`memcpy(&ps, s[code], sLen[code])`). -/
def resolveSt (prd : Bool) (bpr : Nat) (st : St) (code : Nat) : St :=
  let st1 := if code = st.nextCode then pendingInsert st code else st
  let st2 := emitPhase prd bpr st1 code
  let st3 := insertPhase st2 code
  { st3 with ps := st3.s code }

/-- Everything the loop body does after a code has been extracted. -/
def processCode (prd : Bool) (bpr : Nat) (st : St) (code : Nat) (rest : List Nat) :
    StepOut :=
  if code = 256 then .cont (clearReset st) rest
  else if code = 257 then .stop ⟨st.out, .eof, false⟩
  else .cont (bump (resolveSt prd bpr st code)) rest

/-- One iteration of `while (incoming)`: exit when no input remains,
    otherwise read a code and process it. -/
def step (prd : Bool) (bpr : Nat) (st : St) : List Nat → StepOut
  | [] => .stop ⟨st.out, .inputDone, false⟩
  | b :: in1 =>
    match getNextCode st.codeBits st.mask st.iBuf st.nBits b in1 with
    | none => .stop ⟨st.out, .overread, false⟩
    | some (code, iBuf1, nBits1, rest) =>
      processCode prd bpr { st with iBuf := iBuf1, nBits := nBits1 } code rest

/-- The code a `step` from the given state and input would extract. -/
def readCode (st : St) : List Nat → Option Nat
  | [] => none
  | b :: in1 => (getNextCode st.codeBits st.mask st.iBuf st.nBits b in1).map (fun x => x.1)

/-- The decode loop, with fuel.  Each iteration consumes at least one
    input byte, so fuel equal to the input length (as supplied by
    `decompressLZW`) never runs out before the input does. -/
def loop (prd : Bool) (bpr : Nat) : Nat → St → List Nat → Result
  | 0, st, _ => ⟨st.out, .inputDone, false⟩
  | fuel + 1, st, input =>
    match step prd bpr st input with
    | .stop r => r
    | .cont st' rest => loop prd bpr fuel st' rest

/-- The third `decompressLZW` variant of src/main.cpp.  `predictor` and
    `bytesPerRow` are the file-level configuration constants; `outBa`
    is the caller's output buffer, of which the C++ uses only the data
    pointer — its length is never consulted. -/
def decompressLZW (predictor : Bool) (bytesPerRow : Nat) (inBa outBa : List Nat) :
    Result :=
  loop predictor bytesPerRow inBa.length initSt inBa

end V3

namespace P0

/-- Result of a run of the part_000 `decompressLZW` (a `void`
    function: no return value at all). -/
structure Result where
  out : List Nat
  reason : ExitReason
  deriving DecidableEq, Repr

/-- Decoder state of the first `decompressLZW` variant in
    src/unnamed/part_000: the `dict`/`sLen` pair is the table, `prev`
    is the 3-byte circular buffer of the predictor, `m` its index, and
    `pending`/`availBits`/`codeSize`/`currCode`/`nextBump` the bit
    management locals. -/
structure St where
  dict : Nat → List Nat
  ps : List Nat
  nextCode : Nat
  prev : Nat → Nat
  m : Nat
  pending : Nat
  availBits : Nat
  codeSize : Nat
  currCode : Nat
  nextBump : Nat
  out : List Nat

/-- Initial state: literal entries `dict[i*32] = i` with `sLen[i] = 1`
    for `i < 256` (the `memset` presets every `sLen` slot to 1, but
    slots above 257 hold indeterminate bytes and are modelled as `[]`,
    never relied upon), `prev` zeroed, `currCode = 257`,
    `nextBump = 512`. -/
def initSt : St where
  dict := fun i => if i < 256 then [i] else []
  ps := []
  nextCode := 258
  prev := fun _ => 0
  m := 0
  pending := 0
  availBits := 0
  codeSize := 9
  currCode := 257
  nextBump := 512
  out := []

/-- The inner `while (availBits < codeSize)` loop: shift input bytes
    into `pending` until enough bits are available.  `none` models the
    C++ reading past the end of the input buffer (undefined
    behavior). -/
def fillBits (codeSize : Nat) (pending availBits : Nat) :
    List Nat → Option (Nat × Nat × List Nat)
  | [] =>
    if availBits < codeSize then none else some (pending, availBits, [])
  | b :: r =>
    if availBits < codeSize then
      fillBits codeSize ((pending * 256 + b % 256) % 2 ^ 32) (availBits + 8) r
    else some (pending, availBits, b :: r)

/-- One iteration of the predictor output loop: zero `prev` at a row
    boundary (`rowLength` is the local constant 2400), add the decoded
    byte to `prev[m]` with `char` wraparound, store it back in
    `prev[m]`, write it out, and advance `m` circularly (the `switch`
    on `m`). -/
def emitByte (st : St) (v : Nat) : St :=
  let prev0 : Nat → Nat := if st.out.length % 2400 = 0 then fun _ => 0 else st.prev
  let b := (v + prev0 st.m) % 256
  { st with
    prev := fun j => if j = st.m then b else prev0 j
    out := st.out ++ [b]
    m := if st.m = 2 then 0 else st.m + 1 }

/-- The full output loop over a code's string. -/
def emit (st : St) (vs : List Nat) : St :=
  vs.foldl emitByte st

/-- The guarded insertion `if (psLen && nextCode <= MAXCODE)` of
    part_000, with `MAXCODE = 4093`: append
    `prevString ++ dict[code][0]` at `nextCode` and increment it, or
    silently do nothing once the guard fails. -/
def insertPhase (st : St) (code : Nat) : St :=
  if st.ps ≠ [] ∧ st.nextCode ≤ 4093 then
    { st with
      dict := updTable st.dict st.nextCode (st.ps ++ [(st.dict code).headD 0])
      nextCode := st.nextCode + 1 }
  else st

/-- The `CLEAR_CODE` branch of part_000: reset width, bump threshold,
    `currCode`, `nextCode` and the previous string; rewrite the 256
    literal entries (a functional no-op: they always hold their
    literal byte). -/
def clearSt (st : St) : St :=
  { st with codeSize := 9, currCode := 257, nextBump := 512, nextCode := 258, ps := [] }

/-- The `currCode`-driven width bump of part_000: increment `currCode`
    for the code just read, and widen when it hits `nextBump - 1`. -/
def bumpPhase (st : St) : St :=
  let st := { st with currCode := st.currCode + 1 }
  if st.currCode = st.nextBump - 1 then
    { st with nextBump := 2 * st.nextBump, codeSize := st.codeSize + 1 }
  else st

/-- The `code >= nextCode` branch of part_000: store
    `prevString ++ prevString[0]` at `dict[code]`
    (`sLen[code] = psLen + 1`). -/
def pendingPhase (st : St) (code : Nat) : St :=
  if st.nextCode ≤ code then
    { st with dict := updTable st.dict code (st.ps ++ [st.ps.headD 0]) }
  else st

/-- Everything the part_000 loop body does after a code has been
    extracted (and `pending`/`availBits` updated): the `CLEAR_CODE`
    branch, the `currCode`-driven width bump, the `EOF_CODE` break, the
    `code >= nextCode` pending insertion, the output loop, the guarded
    insertion, and the previous-string update. -/
def processCode (st : St) (code : Nat) (rest : List Nat) :
    Option (St × List Nat) ⊕ Result :=
  if code = 256 then .inl (some (clearSt st, rest))
  else
    let st := bumpPhase st
    if code = 257 then .inr ⟨st.out, .eof⟩
    else
      let st := pendingPhase st code
      let st1 := emit st (st.dict code)
      let st2 := insertPhase st1 code
      .inl (some ({ st2 with ps := st2.dict code }, rest))

/-- One iteration of `while (incoming < inBa.size())`: exit when no
    input remains, otherwise fill the bit buffer, extract a code
    (`pending >> (availBits - codeSize)`, then mask the consumed bits
    out of `pending`) and process it.  `.inl none` is the overread
    stop. -/
def step (st : St) : List Nat → Option (St × List Nat) ⊕ Result
  | [] => .inr ⟨st.out, .inputDone⟩
  | b :: in1 =>
    match fillBits st.codeSize st.pending st.availBits (b :: in1) with
    | none => .inl none
    | some (pending1, avail1, rest) =>
      let code := pending1 >>> (avail1 - st.codeSize)
      let avail2 := avail1 - st.codeSize
      let st := { st with pending := pending1 &&& (2 ^ avail2 - 1), availBits := avail2 }
      processCode st code rest

/-- The part_000 decode loop, with fuel (each iteration consumes at
    least one input byte). -/
def loop : Nat → St → List Nat → Result
  | 0, st, _ => ⟨st.out, .inputDone⟩
  | fuel + 1, st, input =>
    match step st input with
    | .inr r => r
    | .inl none => ⟨st.out, .overread⟩
    | .inl (some (st', rest)) => loop fuel st' rest

/-- The first `decompressLZW` variant of src/unnamed/part_000.
    `outBa` is the caller's output buffer, of which the C++ uses only
    the data pointer. -/
def decompressLZW (inBa outBa : List Nat) : Result :=
  loop inBa.length initSt inBa

end P0

/-- Specification-side predictor output, written from the spec's words
    (for comparison with the source-derived `V3.emitPred`): the output
    byte at position `p` equals the decoded byte unchanged when the row
    position `p % bytesPerRow` is below `samplesPerPixel = 3`, and
    otherwise equals the decoded byte plus the output byte at
    `p - 3`, modulo 256. -/
def specPredictOut (bpr : Nat) (dec : List Nat) (p : Nat) : Nat :=
  if p % bpr < 3 then dec.getD p 0
  else (dec.getD p 0 + specPredictOut bpr dec (p - 3)) % 256
termination_by p
decreasing_by
  have h3 : 3 ≤ p % bpr := Nat.le_of_not_lt (by assumption)
  have hle := Nat.mod_le p bpr
  omega

/-- Correlation of `codeBits` and `nextBump` maintained by the v3
    decoder between clears. -/
def pairsOk (st : V3.St) : Prop :=
  (st.codeBits = 9 ∧ st.nextBump = 511) ∨ (st.codeBits = 10 ∧ st.nextBump = 1023) ∨
    (st.codeBits = 11 ∧ st.nextBump = 2047) ∨ (st.codeBits = 12 ∧ st.nextBump = 4095)

/-- Width invariant of the v3 decoder: the `codeBits`/`nextBump` pair
    is one of the four legal ones, and `nextCode` sits strictly below
    the bump threshold except in the saturated `nextBump = 4095`
    regime. -/
def WidthInv (st : V3.St) : Prop :=
  pairsOk st ∧ (st.nextCode < st.nextBump ∨ st.nextBump = 4095)

/-- States reachable by the v3 decode loop from the initial state,
    together with the input remaining when they are reached. -/
inductive Reach (prd : Bool) (bpr : Nat) : V3.St → List Nat → Prop
  | init (input : List Nat) : Reach prd bpr V3.initSt input
  | next {st input st' rest} : Reach prd bpr st input →
      V3.step prd bpr st input = .cont st' rest → Reach prd bpr st' rest

/-- Concrete v3 decoder state whose table is full: `nextCode = 4096`
    means all slots 0–4095 of `s`/`sLen` are spoken for, so the next
    insertion writes `s[4096]`, out of bounds in the C++. -/
def fullSt : V3.St :=
  { V3.initSt with nextCode := 4096, ps := [1], codeBits := 12, nextBump := 4095, mask := 4095 }

/-- One dictionary insertion followed by the width-bump check, exactly
    as the v3 loop performs them for every non-special code whose
    previous string is nonempty (the inserted string's contents are
    irrelevant to the width bookkeeping; code 65 is arbitrary). -/
def insBump (st : V3.St) : V3.St :=
  V3.bump (V3.insertPhase st 65)

/-- A freshly cleared v3 state carrying a nonempty previous string, as
    after the first code following a ClearCode: code width 9,
    `nextCode = 258`, `nextBump = 511`. -/
def clearedSt : V3.St :=
  { V3.clearReset V3.initSt with ps := [65] }

theorem emitPred_nil (bpr : Nat) (out : List Nat) : V3.emitPred bpr out [] = out := rfl

theorem emitPred_cons (bpr : Nat) (out : List Nat) (v : Nat) (vs : List Nat) :
    V3.emitPred bpr out (v :: vs) = V3.emitPred bpr (V3.emitPredByte bpr out v) vs := rfl

theorem emitPredByte_length (bpr : Nat) (out : List Nat) (v : Nat) :
    (V3.emitPredByte bpr out v).length = out.length + 1 := by
  unfold V3.emitPredByte
  split <;> simp

theorem emitPred_length (bpr : Nat) (vs out : List Nat) :
    (V3.emitPred bpr out vs).length = out.length + vs.length := by
  induction vs generalizing out with
  | nil => simp [emitPred_nil]
  | cons v vs ih =>
    rw [emitPred_cons, ih, emitPredByte_length, List.length_cons]
    omega

theorem emitPredByte_getD_lt (bpr : Nat) (out : List Nat) (v : Nat) {k : Nat}
    (h : k < out.length) : (V3.emitPredByte bpr out v).getD k 0 = out.getD k 0 := by
  unfold V3.emitPredByte
  split <;> exact List.getD_append _ _ _ _ h

theorem emitPred_getD_lt (bpr : Nat) (vs out : List Nat) {k : Nat}
    (h : k < out.length) : (V3.emitPred bpr out vs).getD k 0 = out.getD k 0 := by
  induction vs generalizing out with
  | nil => rfl
  | cons v vs ih =>
    rw [emitPred_cons, ih (V3.emitPredByte bpr out v)
      (by rw [emitPredByte_length]; omega), emitPredByte_getD_lt bpr out v h]

theorem emitPred_getD_spec (bpr : Nat) (vs out : List Nat) {i : Nat} (h : i < vs.length) :
    (V3.emitPred bpr out vs).getD (out.length + i) 0 =
      if (out.length + i) % bpr < 3 then vs.getD i 0
      else (vs.getD i 0 +
        (V3.emitPred bpr out vs).getD (out.length + i - 3) 0) % 256 := by
  induction vs generalizing out i with
  | nil => simp at h
  | cons v vs ih =>
    cases i with
    | zero =>
      rw [Nat.add_zero, emitPred_cons]
      have hlen : out.length < (V3.emitPredByte bpr out v).length := by
        rw [emitPredByte_length]; omega
      rw [emitPred_getD_lt bpr vs (V3.emitPredByte bpr out v) hlen]
      by_cases hrow : out.length % bpr < 3
      · rw [if_pos hrow]
        unfold V3.emitPredByte
        rw [if_pos hrow, List.getD_append_right _ _ _ _ (Nat.le_refl _)]
        simp
      · rw [if_neg hrow]
        have h3 : 3 ≤ out.length % bpr := Nat.le_of_not_lt hrow
        have hple : out.length % bpr ≤ out.length := Nat.mod_le _ _
        have hlt3 : out.length - 3 < out.length := by omega
        have hlt3b : out.length - 3 < (V3.emitPredByte bpr out v).length := by
          rw [emitPredByte_length]; omega
        rw [emitPred_getD_lt bpr vs (V3.emitPredByte bpr out v) hlt3b,
          emitPredByte_getD_lt bpr out v hlt3]
        unfold V3.emitPredByte
        rw [if_neg hrow, List.getD_append_right _ _ _ _ (Nat.le_refl _)]
        simp
    | succ j =>
      have hj : j < vs.length := by simpa using h
      have hsh : out.length + (j + 1) = (V3.emitPredByte bpr out v).length + j := by
        rw [emitPredByte_length]; omega
      rw [emitPred_cons, hsh]
      have key := ih (V3.emitPredByte bpr out v) hj
      rw [key]
      simp

/-- C9: the predictor's delta state resets at every `bytesPerRow`
    boundary of the output position, independent of code boundaries:
    for any already-written output `out` and any single code's resolved
    string `vs` (which may straddle a row boundary), the byte emitted
    at global position `out.length + i` is the decoded byte unchanged
    when its row position is below `samplesPerPixel = 3`, and otherwise
    the decoded byte plus the output byte three positions back, modulo
    256 — the source's output loop `V3.emitPred` tests `n % bytesPerRow`
    afresh for every byte it writes. -/
theorem claim_C9 : ∀ (bpr : Nat) (vs out : List Nat) (i : Nat), i < vs.length →
    (V3.emitPred bpr out vs).getD (out.length + i) 0 =
      if (out.length + i) % bpr < 3 then vs.getD i 0
      else (vs.getD i 0 +
        (V3.emitPred bpr out vs).getD (out.length + i - 3) 0) % 256 :=
  fun bpr vs out _ h => emitPred_getD_spec bpr vs out h

/-- Witness for C9 at a string straddling a row boundary: with
    `bytesPerRow = 6` and 4 bytes already written, the string
    `[7, 8, 9, 10]` is emitted at positions 4–7; position 6 is the
    start of a new row, so the byte at index `i = 2` of the string is
    written absolutely. -/
theorem claim_C9_witness :
    (V3.emitPred 6 [1, 2, 3, 4] [7, 8, 9, 10]).getD ([1, 2, 3, 4].length + 2) 0 =
      if (([1, 2, 3, 4] : List Nat).length + 2) % 6 < 3 then ([7, 8, 9, 10] : List Nat).getD 2 0
      else (([7, 8, 9, 10] : List Nat).getD 2 0 +
        (V3.emitPred 6 [1, 2, 3, 4] [7, 8, 9, 10]).getD ([1, 2, 3, 4].length + 2 - 3) 0) % 256 :=
  claim_C9 6 [7, 8, 9, 10] [1, 2, 3, 4] 2 (by decide)

/-- C2: with the predictor enabled and `samplesPerPixel = 3`, the
    output of the source's predictor loop agrees at every position with
    the specification-side filter `specPredictOut` (absolute below row
    position 3, prior-sample-plus-delta modulo 256 from position 3 on);
    in particular the decoded row `[10, 20, 30, 5, 0, 0]` with
    `bytesPerRow = 6` filters to `[10, 20, 30, 15, 20, 30]`, and a
    decoded delta 250 added to a prior 10 wraps to 4 rather than
    erroring. -/
theorem claim_C2 :
    (∀ (bpr : Nat) (dec : List Nat) (p : Nat), p < dec.length →
        (V3.emitPred bpr [] dec).getD p 0 = specPredictOut bpr dec p) ∧
    V3.emitPred 6 [] [10, 20, 30, 5, 0, 0] = [10, 20, 30, 15, 20, 30] ∧
    V3.emitPred 6 [] [10, 20, 30, 250, 0, 0] = [10, 20, 30, 4, 20, 30] := by
  refine ⟨?_, by decide, by decide⟩
  intro bpr dec p
  induction p using Nat.strong_induction_on with
  | _ p ih =>
    intro hp
    have key := emitPred_getD_spec bpr dec [] hp
    simp only [List.length_nil, Nat.zero_add] at key
    rw [key, specPredictOut]
    by_cases hrow : p % bpr < 3
    · rw [if_pos hrow, if_pos hrow]
    · rw [if_neg hrow, if_neg hrow]
      have h3 : 3 ≤ p % bpr := Nat.le_of_not_lt hrow
      have hple : p % bpr ≤ p := Nat.mod_le _ _
      rw [ih (p - 3) (by omega) (by omega)]

/-- Witness for C2 at the spec's concrete row: position 3 of the
    decoded row `[10, 20, 30, 5, 0, 0]` with `bytesPerRow = 6`. -/
theorem claim_C2_witness :
    (V3.emitPred 6 [] [10, 20, 30, 5, 0, 0]).getD 3 0 =
      specPredictOut 6 [10, 20, 30, 5, 0, 0] 3 :=
  claim_C2.1 6 [10, 20, 30, 5, 0, 0] 3 (by decide)

/-- C1: the 9-bit stream packing the codes 65 'A', 66 'B', 65, 66, 65,
    256 (ClearCode), 257 (EOFCode) — bytes 32 90 88 24 22 0C 02 02 in
    hex — decoded with the predictor disabled writes exactly the bytes
    "ABABA" and ends by reading EOFCode, with 5 bytes written. -/
theorem claim_C1 :
    V3.decompressLZW false 2400 [32, 144, 136, 36, 34, 12, 2, 2] [] =
      ⟨[65, 66, 65, 66, 65], .eof, false⟩ ∧
    (V3.decompressLZW false 2400 [32, 144, 136, 36, 34, 12, 2, 2] []).out.length = 5 := by
  decide

/-- C6 (amended): the decoder performs no bounds check against the
    caller's output buffer: the result is a function of the input
    alone (the length of `outBa` is never consulted), and there are
    inputs whose decoded stream is strictly longer than the supplied
    buffer, which the decode writes in full while returning its
    constant `false` — there is no OutputOverflow outcome. -/
theorem claim_C6 :
    (∀ (prd : Bool) (bpr : Nat) (inBa o1 o2 : List Nat),
        V3.decompressLZW prd bpr inBa o1 = V3.decompressLZW prd bpr inBa o2) ∧
    (∃ inBa outBa : List Nat,
        outBa.length < (V3.decompressLZW false 2400 inBa outBa).out.length ∧
        (V3.decompressLZW false 2400 inBa outBa).ret = false) :=
  ⟨fun _ _ _ _ _ => rfl, ⟨[33, 145, 32, 32], [0], by decide, by decide⟩⟩

/-- Counterexample to C6 as stated: the 9-bit stream packing the codes
    67 'C', 68 'D', 257 (EOFCode) decoded into a 1-byte output buffer
    writes 2 bytes — in the C++ the second write lands past the end of
    the caller's buffer — and the function still returns its constant
    `false`: it neither stops at the buffer bound nor fails with
    OutputOverflow (no such error exists in the code). -/
theorem claim_C6_counterexample :
    (V3.decompressLZW false 2400 [33, 145, 32, 32] [0]).out.length = 2 ∧
    ([0] : List Nat).length = 1 ∧
    (V3.decompressLZW false 2400 [33, 145, 32, 32] [0]).ret = false := by
  decide

theorem updTable_self (t : Nat → List Nat) (k : Nat) (v : List Nat) :
    updTable t k v k = v := by
  simp [updTable]

theorem updTable_eq (t : Nat → List Nat) (k : Nat) (v : List Nat) {j : Nat}
    (h : j = k) : updTable t k v j = v := by
  simp [updTable, h]

theorem updTable_ne (t : Nat → List Nat) (k : Nat) (v : List Nat) {j : Nat}
    (h : j ≠ k) : updTable t k v j = t j := by
  simp [updTable, h]

theorem headD_append_headD (l : List Nat) : (l ++ [l.headD 0]).headD 0 = l.headD 0 := by
  cases l <;> rfl

theorem p0_emitByte_dict (st : P0.St) (v : Nat) : (P0.emitByte st v).dict = st.dict := rfl

theorem p0_emitByte_ps (st : P0.St) (v : Nat) : (P0.emitByte st v).ps = st.ps := rfl

theorem p0_emitByte_nextCode (st : P0.St) (v : Nat) :
    (P0.emitByte st v).nextCode = st.nextCode := rfl

theorem p0_emit_cons (st : P0.St) (v : Nat) (vs : List Nat) :
    P0.emit st (v :: vs) = P0.emit (P0.emitByte st v) vs := rfl

theorem p0_emit_dict (vs : List Nat) (st : P0.St) : (P0.emit st vs).dict = st.dict := by
  induction vs generalizing st with
  | nil => rfl
  | cons v vs ih => rw [p0_emit_cons, ih, p0_emitByte_dict]

theorem p0_emit_ps (vs : List Nat) (st : P0.St) : (P0.emit st vs).ps = st.ps := by
  induction vs generalizing st with
  | nil => rfl
  | cons v vs ih => rw [p0_emit_cons, ih, p0_emitByte_ps]

theorem p0_emit_nextCode (vs : List Nat) (st : P0.St) :
    (P0.emit st vs).nextCode = st.nextCode := by
  induction vs generalizing st with
  | nil => rfl
  | cons v vs ih => rw [p0_emit_cons, ih, p0_emitByte_nextCode]

theorem p0_bumpPhase_dict (st : P0.St) : (P0.bumpPhase st).dict = st.dict := by
  simp only [P0.bumpPhase]
  split <;> rfl

theorem p0_bumpPhase_ps (st : P0.St) : (P0.bumpPhase st).ps = st.ps := by
  simp only [P0.bumpPhase]
  split <;> rfl

theorem p0_bumpPhase_nextCode (st : P0.St) : (P0.bumpPhase st).nextCode = st.nextCode := by
  simp only [P0.bumpPhase]
  split <;> rfl

theorem p0_insertPhase_ps (st : P0.St) (code : Nat) :
    (P0.insertPhase st code).ps = st.ps := by
  unfold P0.insertPhase
  split <;> rfl

theorem v3_insertPhase_fields (st : V3.St) (code : Nat) (h : st.ps ≠ []) :
    (V3.insertPhase st code).codeBits = st.codeBits ∧
    (V3.insertPhase st code).nextBump = st.nextBump ∧
    (V3.insertPhase st code).nextCode = st.nextCode + 1 ∧
    (V3.insertPhase st code).ps = st.ps := by
  unfold V3.insertPhase
  rw [if_neg h]
  exact ⟨rfl, rfl, rfl, rfl⟩

theorem v3_bump_ne (st : V3.St) (h : st.nextCode ≠ st.nextBump) : V3.bump st = st := by
  unfold V3.bump
  rw [if_neg h]

theorem v3_bump_eq_lt (st : V3.St) (h1 : st.nextCode = st.nextBump)
    (h2 : st.nextCode < 4095) :
    V3.bump st =
      { st with
        nextBump := 2 * st.nextBump + 1
        codeBits := st.codeBits + 1
        mask := 2 ^ (st.codeBits + 1) - 1 } := by
  unfold V3.bump
  rw [if_pos h1, if_pos h2]

theorem insBump_no (st : V3.St) (h : st.ps = [65]) (hne : st.nextCode + 1 ≠ st.nextBump) :
    (insBump st).codeBits = st.codeBits ∧ (insBump st).nextBump = st.nextBump ∧
    (insBump st).nextCode = st.nextCode + 1 ∧ (insBump st).ps = [65] := by
  unfold insBump
  have hps : st.ps ≠ [] := by rw [h]; simp
  obtain ⟨h1, h2, h3, h4⟩ := v3_insertPhase_fields st 65 hps
  rw [v3_bump_ne _ (by rw [h3, h2]; exact hne)]
  exact ⟨h1, h2, h3, by rw [h4, h]⟩

theorem insBump_widen (st : V3.St) (h : st.ps = [65]) (heq : st.nextCode + 1 = st.nextBump)
    (hlt : st.nextBump < 4095) :
    (insBump st).codeBits = st.codeBits + 1 ∧ (insBump st).nextBump = 2 * st.nextBump + 1 ∧
    (insBump st).nextCode = st.nextBump ∧ (insBump st).ps = [65] := by
  unfold insBump
  have hps : st.ps ≠ [] := by rw [h]; simp
  obtain ⟨h1, h2, h3, h4⟩ := v3_insertPhase_fields st 65 hps
  rw [v3_bump_eq_lt _ (by rw [h3, h2]; exact heq) (by rw [h3, heq]; exact hlt)]
  refine ⟨?_, ?_, ?_, ?_⟩
  · show (V3.insertPhase st 65).codeBits + 1 = st.codeBits + 1
    rw [h1]
  · show 2 * (V3.insertPhase st 65).nextBump + 1 = 2 * st.nextBump + 1
    rw [h2]
  · show (V3.insertPhase st 65).nextCode = st.nextBump
    rw [h3, heq]
  · show (V3.insertPhase st 65).ps = [65]
    rw [h4, h]

theorem insBump_iter_run : ∀ (k : Nat) (st : V3.St), st.ps = [65] →
    st.nextCode + k < st.nextBump →
    (insBump^[k] st).codeBits = st.codeBits ∧
    (insBump^[k] st).nextBump = st.nextBump ∧
    (insBump^[k] st).nextCode = st.nextCode + k ∧
    (insBump^[k] st).ps = [65] := by
  intro k
  induction k with
  | zero => intro st h _; exact ⟨rfl, rfl, rfl, h⟩
  | succ k ih =>
    intro st h hlt
    rw [Function.iterate_succ_apply]
    obtain ⟨h1, h2, h3, h4⟩ := insBump_no st h (by omega)
    obtain ⟨g1, g2, g3, g4⟩ := ih (insBump st) h4 (by rw [h3, h2]; omega)
    refine ⟨by rw [g1, h1], by rw [g2, h2], ?_, g4⟩
    rw [g3, h3]
    omega

/-- C3: starting from a cleared table (code width 9, `nextCode` 258,
    `nextBump` 511), iterating the v3 loop's insertion-then-bump-check
    pair (`insBump`): after 252 insertions the width is still 9, after
    exactly 253 insertions (`nextCode` reaching 511) the width used to
    read the next code is 10; after 765 insertions (`nextCode` 1023)
    it is 11, and after 1789 insertions (`nextCode` 2047) it is 12 —
    the early-change convention, one code before the naive
    power-of-two boundary. -/
theorem claim_C3 :
    (insBump^[252] clearedSt).codeBits = 9 ∧
    (insBump^[253] clearedSt).codeBits = 10 ∧
    (insBump^[253] clearedSt).nextCode = 511 ∧
    (insBump^[764] clearedSt).codeBits = 10 ∧
    (insBump^[765] clearedSt).codeBits = 11 ∧
    (insBump^[765] clearedSt).nextCode = 1023 ∧
    (insBump^[1788] clearedSt).codeBits = 11 ∧
    (insBump^[1789] clearedSt).codeBits = 12 ∧
    (insBump^[1789] clearedSt).nextCode = 2047 := by
  obtain ⟨a1, a2, a3, a4⟩ := insBump_iter_run 252 clearedSt rfl (by decide)
  have h253 : insBump^[253] clearedSt = insBump (insBump^[252] clearedSt) :=
    Function.iterate_succ_apply' insBump 252 clearedSt
  obtain ⟨b1, b2, b3, b4⟩ := insBump_widen (insBump^[252] clearedSt) a4
    (by rw [a3, a2]; decide) (by rw [a2]; decide)
  have c1 : (insBump^[253] clearedSt).codeBits = 10 := by rw [h253, b1, a1]; rfl
  have c2 : (insBump^[253] clearedSt).nextBump = 1023 := by rw [h253, b2, a2]; rfl
  have c3 : (insBump^[253] clearedSt).nextCode = 511 := by rw [h253, b3, a2]; rfl
  have c4 : (insBump^[253] clearedSt).ps = [65] := by rw [h253]; exact b4
  have h764 : insBump^[764] clearedSt = insBump^[511] (insBump^[253] clearedSt) := by
    rw [show (764 : Nat) = 511 + 253 from rfl, Function.iterate_add_apply]
  obtain ⟨d1, d2, d3, d4⟩ := insBump_iter_run 511 (insBump^[253] clearedSt) c4
    (by rw [c3, c2]; decide)
  have e1 : (insBump^[764] clearedSt).codeBits = 10 := by rw [h764, d1, c1]
  have e2 : (insBump^[764] clearedSt).nextBump = 1023 := by rw [h764, d2, c2]
  have e3 : (insBump^[764] clearedSt).nextCode = 1022 := by rw [h764, d3, c3]
  have e4 : (insBump^[764] clearedSt).ps = [65] := by rw [h764]; exact d4
  have h765 : insBump^[765] clearedSt = insBump (insBump^[764] clearedSt) :=
    Function.iterate_succ_apply' insBump 764 clearedSt
  obtain ⟨f1, f2, f3, f4⟩ := insBump_widen (insBump^[764] clearedSt) e4
    (by rw [e3, e2]) (by rw [e2]; decide)
  have g1 : (insBump^[765] clearedSt).codeBits = 11 := by rw [h765, f1, e1]
  have g2 : (insBump^[765] clearedSt).nextBump = 2047 := by rw [h765, f2, e2]
  have g3 : (insBump^[765] clearedSt).nextCode = 1023 := by rw [h765, f3, e2]
  have g4 : (insBump^[765] clearedSt).ps = [65] := by rw [h765]; exact f4
  have h1788 : insBump^[1788] clearedSt = insBump^[1023] (insBump^[765] clearedSt) := by
    rw [show (1788 : Nat) = 1023 + 765 from rfl, Function.iterate_add_apply]
  obtain ⟨i1, i2, i3, i4⟩ := insBump_iter_run 1023 (insBump^[765] clearedSt) g4
    (by rw [g3, g2]; decide)
  have j1 : (insBump^[1788] clearedSt).codeBits = 11 := by rw [h1788, i1, g1]
  have j2 : (insBump^[1788] clearedSt).nextBump = 2047 := by rw [h1788, i2, g2]
  have j3 : (insBump^[1788] clearedSt).nextCode = 2046 := by rw [h1788, i3, g3]
  have j4 : (insBump^[1788] clearedSt).ps = [65] := by rw [h1788]; exact i4
  have h1789 : insBump^[1789] clearedSt = insBump (insBump^[1788] clearedSt) :=
    Function.iterate_succ_apply' insBump 1788 clearedSt
  obtain ⟨k1, k2, k3, k4⟩ := insBump_widen (insBump^[1788] clearedSt) j4
    (by rw [j3, j2]) (by rw [j2]; decide)
  refine ⟨by rw [a1]; rfl, c1, c3, e1, g1, g3, j1, ?_, ?_⟩
  · rw [h1789, k1, j1]
  · rw [h1789, k3, j2]

/-- Resolution of a not-yet-defined code in part_000: the pending
    write followed by emission and the guarded insertion leaves
    `dict[code]` holding `prevString ++ prevString[0]`. -/
theorem p0_resolve_dict (stb : P0.St) (code : Nat) (hle : stb.nextCode ≤ code) :
    (P0.insertPhase
        (P0.emit (P0.pendingPhase stb code) ((P0.pendingPhase stb code).dict code))
        code).dict code = stb.ps ++ [stb.ps.headD 0] := by
  have hdictp : (P0.pendingPhase stb code).dict code = stb.ps ++ [stb.ps.headD 0] := by
    unfold P0.pendingPhase
    rw [if_pos hle]
    show updTable stb.dict code (stb.ps ++ [stb.ps.headD 0]) code = _
    exact updTable_self _ _ _
  have hpsp : (P0.pendingPhase stb code).ps = stb.ps := by
    unfold P0.pendingPhase
    rw [if_pos hle]
  have hdict1 := p0_emit_dict ((P0.pendingPhase stb code).dict code) (P0.pendingPhase stb code)
  have hps1 := p0_emit_ps ((P0.pendingPhase stb code).dict code) (P0.pendingPhase stb code)
  unfold P0.insertPhase
  split
  · show updTable _ _ _ code = stb.ps ++ [stb.ps.headD 0]
    by_cases hc : code =
        (P0.emit (P0.pendingPhase stb code) ((P0.pendingPhase stb code).dict code)).nextCode
    · rw [updTable_eq _ _ _ hc, hps1, hpsp, hdict1, hdictp, headD_append_headD]
    · rw [updTable_ne _ _ _ hc, hdict1, hdictp]
  · rw [hdict1, hdictp]

/-- C4 (amended): the part_000 decoder performs no validation of codes
    against `nextAvailableCode`: every non-special code that is not
    below `nextCode` — not only the single pending case
    `code == nextCode` — is resolved from the previous string
    (`previousString ++ firstByte(previousString)`), stored at that
    code's slot, and decoding continues normally; there is no
    CorruptStream error and no abort. -/
theorem claim_C4 : ∀ (st : P0.St) (code : Nat) (rest : List Nat),
    code ≠ 256 → code ≠ 257 → st.nextCode ≤ code →
    ∃ st', P0.processCode st code rest = .inl (some (st', rest)) ∧
      st'.dict code = st.ps ++ [st.ps.headD 0] ∧
      st'.ps = st.ps ++ [st.ps.headD 0] := by
  intro st code rest h256 h257 hle
  unfold P0.processCode
  rw [if_neg h256, if_neg h257]
  have hle2 : (P0.bumpPhase st).nextCode ≤ code := by
    rw [p0_bumpPhase_nextCode]; exact hle
  refine ⟨_, rfl, ?_, ?_⟩
  · show (P0.insertPhase
        (P0.emit (P0.pendingPhase (P0.bumpPhase st) code)
          ((P0.pendingPhase (P0.bumpPhase st) code).dict code))
        code).dict code = st.ps ++ [st.ps.headD 0]
    rw [p0_resolve_dict (P0.bumpPhase st) code hle2, p0_bumpPhase_ps]
  · show (P0.insertPhase
        (P0.emit (P0.pendingPhase (P0.bumpPhase st) code)
          ((P0.pendingPhase (P0.bumpPhase st) code).dict code))
        code).dict code = st.ps ++ [st.ps.headD 0]
    rw [p0_resolve_dict (P0.bumpPhase st) code hle2, p0_bumpPhase_ps]

/-- Witness for C4 at a concrete state: from the initial table with
    previous string "A", the code 300 (well above `nextCode = 258`) is
    resolved to "AA" and decoding continues. -/
theorem claim_C4_witness :
    ∃ st', P0.processCode { P0.initSt with ps := [65] } 300 [] = .inl (some (st', [])) ∧
      st'.dict 300 = [65, 65] ∧ st'.ps = [65, 65] := by
  exact claim_C4 { P0.initSt with ps := [65] } 300 [] (by decide) (by decide) (by decide)

/-- Counterexample to C4 as stated: the 9-bit stream packing the codes
    65 'A', 300, 257 (EOFCode).  When 300 is read, `nextAvailableCode`
    is 258, so 300 is neither below it nor equal to it; the claim
    demands a CorruptStream failure aborting the strip decode (which
    would leave only the 1 byte written for the first code), but the
    decode instead resolves 300 from the previous string, emits two
    further bytes and terminates normally at EOFCode — there is no
    error outcome at all in the code. -/
theorem claim_C4_counterexample :
    P0.decompressLZW [32, 203, 32, 32] [] = ⟨[65, 65, 65], .eof⟩ ∧
    1 < (P0.decompressLZW [32, 203, 32, 32] []).out.length := by
  decide

/-- C5 (amended): neither variant detects table overflow.  In the v3
    decoder of src/main.cpp the `MAXCODE` guard is commented out, so
    whenever the previous string is nonempty the insertion happens
    unconditionally — `nextCode` is incremented past any bound (the
    C++ write `s[nextCode]` is out of bounds once `nextCode` exceeds
    4095) and the output written so far is untouched; in the part_000
    variant the insertion is silently skipped once `nextCode` is past
    `MAXCODE = 4093` and decoding continues.  No TableFull error
    exists in either variant. -/
theorem claim_C5 :
    (∀ (st : V3.St) (code : Nat), st.ps ≠ [] →
        (V3.insertPhase st code).nextCode = st.nextCode + 1 ∧
        (V3.insertPhase st code).s st.nextCode = st.ps ++ [(st.s code).headD 0] ∧
        (V3.insertPhase st code).out = st.out) ∧
    (∀ (st : P0.St) (code : Nat), 4093 < st.nextCode → P0.insertPhase st code = st) := by
  constructor
  · intro st code hps
    unfold V3.insertPhase
    rw [if_neg hps]
    exact ⟨rfl, updTable_self _ _ _, rfl⟩
  · intro st code h
    unfold P0.insertPhase
    rw [if_neg (fun hc => absurd hc.2 (by omega))]

/-- Witness for C5: a concrete insertion with nonempty previous string
    in the v3 decoder, and a concrete silently-skipped insertion at
    `nextCode = 4094` in the part_000 decoder. -/
theorem claim_C5_witness :
    ((V3.insertPhase { V3.initSt with ps := [7] } 0).nextCode =
        ({ V3.initSt with ps := [7] } : V3.St).nextCode + 1 ∧
      (V3.insertPhase { V3.initSt with ps := [7] } 0).s
          ({ V3.initSt with ps := [7] } : V3.St).nextCode =
        ({ V3.initSt with ps := [7] } : V3.St).ps ++
          [(({ V3.initSt with ps := [7] } : V3.St).s 0).headD 0] ∧
      (V3.insertPhase { V3.initSt with ps := [7] } 0).out =
        ({ V3.initSt with ps := [7] } : V3.St).out) ∧
    P0.insertPhase { P0.initSt with nextCode := 4094 } 0 =
      { P0.initSt with nextCode := 4094 } :=
  ⟨claim_C5.1 { V3.initSt with ps := [7] } 0 (by decide),
    claim_C5.2 { P0.initSt with nextCode := 4094 } 0 (by decide)⟩

/-- Counterexample to C5 as stated: `fullSt` has `nextCode = 4096`
    (every table slot 0–4095 spoken for; in the C++ the next insertion
    writes `s[4096]`, past the end of the table).  The claim demands a
    TableFull failure, but the v3 insertion proceeds: `nextCode`
    becomes 4097, the entry is written, the output is untouched, and
    no error of any kind is produced. -/
theorem claim_C5_counterexample :
    (V3.insertPhase fullSt 0).nextCode = 4097 ∧
    (V3.insertPhase fullSt 0).s 4096 = [1, 0] ∧
    (V3.insertPhase fullSt 0).out = fullSt.out := by
  decide

/-- C7 (amended): per W-bit request the v3 bit reader consumes exactly
    the minimal number of input bytes able to satisfy the request
    (never more): when it returns, the bytes consumed supply at least
    W bits and no smaller byte count would; and it returns no code
    (the C++ reads past the end of the input buffer — there is no
    ExhaustedInput error) exactly when a second byte is required but
    the input has none left. -/
theorem claim_C7 : ∀ (W mask iBuf nBits b : Nat) (in1 : List Nat),
    nBits < W → W ≤ 12 →
    (∀ (code iBuf1 nBits1 : Nat) (rest : List Nat),
        V3.getNextCode W mask iBuf nBits b in1 = some (code, iBuf1, nBits1, rest) →
        (W ≤ nBits + 8 * ((b :: in1).length - rest.length) ∧
          ∀ k, W ≤ nBits + 8 * k → (b :: in1).length - rest.length ≤ k)) ∧
    (V3.getNextCode W mask iBuf nBits b in1 = none ↔ in1 = [] ∧ nBits + 8 < W) := by
  intro W mask iBuf nBits b in1 hlt hW
  unfold V3.getNextCode
  by_cases h8 : nBits + 8 < W
  · rw [if_pos h8]
    cases in1 with
    | nil =>
      refine ⟨fun code i1 n1 rest heq => by exact absurd heq (by simp), ?_⟩
      simp [h8]
    | cons b2 in2 =>
      constructor
      · intro code i1 n1 rest heq
        simp only [Option.some.injEq, Prod.mk.injEq] at heq
        obtain ⟨-, -, -, hr⟩ := heq
        subst hr
        simp only [List.length_cons]
        constructor
        · omega
        · intro k hk
          omega
      · simp [h8]
  · rw [if_neg h8]
    constructor
    · intro code i1 n1 rest heq
      simp only [Option.some.injEq, Prod.mk.injEq] at heq
      obtain ⟨-, -, -, hr⟩ := heq
      subst hr
      simp only [List.length_cons]
      constructor
      · omega
      · intro k hk
        omega
    · constructor
      · intro heq
        exact absurd heq (by simp)
      · intro ⟨_, hbad⟩
        exact absurd hbad h8

/-- Witness for C7: with 0 bits buffered and an empty remaining input,
    a 9-bit request cannot be satisfied and the reader yields no
    code. -/
theorem claim_C7_witness :
    V3.getNextCode 9 511 0 0 0 [] = none ↔ ([] : List Nat) = [] ∧ 0 + 8 < 9 :=
  (claim_C7 9 511 0 0 0 [] (by decide) (by decide)).2

/-- Counterexample to C7 as stated: a 1-byte input cannot supply a
    9-bit code.  The claim demands an ExhaustedInput failure, but no
    such error exists — the C++ unconditionally reads a second byte
    past the end of the input buffer (undefined behavior, modelled by
    the `overread` marker) while the function's only outcome remains
    its constant `false`. -/
theorem claim_C7_counterexample :
    V3.decompressLZW false 2400 [0] [] = ⟨[], .overread, false⟩ := by
  decide

theorem v3_emitPhase_fields (prd : Bool) (bpr : Nat) (st : V3.St) (code : Nat) :
    (V3.emitPhase prd bpr st code).codeBits = st.codeBits ∧
    (V3.emitPhase prd bpr st code).nextBump = st.nextBump ∧
    (V3.emitPhase prd bpr st code).nextCode = st.nextCode := by
  unfold V3.emitPhase
  split <;> exact ⟨rfl, rfl, rfl⟩

theorem v3_insertPhase_bounds (st : V3.St) (code : Nat) :
    (V3.insertPhase st code).codeBits = st.codeBits ∧
    (V3.insertPhase st code).nextBump = st.nextBump ∧
    st.nextCode ≤ (V3.insertPhase st code).nextCode ∧
    (V3.insertPhase st code).nextCode ≤ st.nextCode + 1 := by
  unfold V3.insertPhase
  split
  · exact ⟨rfl, rfl, Nat.le_refl _, Nat.le_succ _⟩
  · exact ⟨rfl, rfl, Nat.le_succ _, Nat.le_refl _⟩

theorem v3_resolveSt_fields (prd : Bool) (bpr : Nat) (st : V3.St) (code : Nat) :
    (V3.resolveSt prd bpr st code).codeBits = st.codeBits ∧
    (V3.resolveSt prd bpr st code).nextBump = st.nextBump ∧
    st.nextCode ≤ (V3.resolveSt prd bpr st code).nextCode ∧
    (V3.resolveSt prd bpr st code).nextCode ≤ st.nextCode + 1 := by
  have hsplit : ((if code = st.nextCode then V3.pendingInsert st code else st)).codeBits
        = st.codeBits ∧
      ((if code = st.nextCode then V3.pendingInsert st code else st)).nextBump
        = st.nextBump ∧
      ((if code = st.nextCode then V3.pendingInsert st code else st)).nextCode
        = st.nextCode := by
    split <;> exact ⟨rfl, rfl, rfl⟩
  obtain ⟨e1, e2, e3⟩ := v3_emitPhase_fields prd bpr
    (if code = st.nextCode then V3.pendingInsert st code else st) code
  obtain ⟨i1, i2, i3, i4⟩ := v3_insertPhase_bounds
    (V3.emitPhase prd bpr (if code = st.nextCode then V3.pendingInsert st code else st) code)
    code
  refine ⟨?_, ?_, ?_, ?_⟩
  · show (V3.insertPhase (V3.emitPhase prd bpr
        (if code = st.nextCode then V3.pendingInsert st code else st) code) code).codeBits
      = st.codeBits
    rw [i1, e1, hsplit.1]
  · show (V3.insertPhase (V3.emitPhase prd bpr
        (if code = st.nextCode then V3.pendingInsert st code else st) code) code).nextBump
      = st.nextBump
    rw [i2, e2, hsplit.2.1]
  · show st.nextCode ≤ (V3.insertPhase (V3.emitPhase prd bpr
        (if code = st.nextCode then V3.pendingInsert st code else st) code) code).nextCode
    calc st.nextCode
        = (V3.emitPhase prd bpr
            (if code = st.nextCode then V3.pendingInsert st code else st) code).nextCode := by
          rw [e3, hsplit.2.2]
      _ ≤ _ := i3
  · show (V3.insertPhase (V3.emitPhase prd bpr
        (if code = st.nextCode then V3.pendingInsert st code else st) code) code).nextCode
      ≤ st.nextCode + 1
    calc (V3.insertPhase (V3.emitPhase prd bpr
          (if code = st.nextCode then V3.pendingInsert st code else st) code) code).nextCode
        ≤ (V3.emitPhase prd bpr
            (if code = st.nextCode then V3.pendingInsert st code else st) code).nextCode
          + 1 := i4
      _ = st.nextCode + 1 := by rw [e3, hsplit.2.2]

theorem v3_bump_inv (st : V3.St) (hp : pairsOk st)
    (h2 : st.nextCode ≤ st.nextBump ∨ st.nextBump = 4095) :
    WidthInv (V3.bump st) ∧ st.codeBits ≤ (V3.bump st).codeBits := by
  unfold V3.bump WidthInv
  by_cases he : st.nextCode = st.nextBump
  · rw [if_pos he]
    by_cases hlt : st.nextCode < 4095
    · rw [if_pos hlt]
      refine ⟨⟨?_, ?_⟩, ?_⟩
      · unfold pairsOk
        unfold pairsOk at hp
        rcases hp with ⟨hc, hb⟩ | ⟨hc, hb⟩ | ⟨hc, hb⟩ | ⟨hc, hb⟩
        · exact Or.inr (Or.inl ⟨show st.codeBits + 1 = 10 by omega,
            show 2 * st.nextBump + 1 = 1023 by omega⟩)
        · exact Or.inr (Or.inr (Or.inl ⟨show st.codeBits + 1 = 11 by omega,
            show 2 * st.nextBump + 1 = 2047 by omega⟩))
        · exact Or.inr (Or.inr (Or.inr ⟨show st.codeBits + 1 = 12 by omega,
            show 2 * st.nextBump + 1 = 4095 by omega⟩))
        · exact absurd hlt (by omega)
      · exact Or.inl (show st.nextCode < 2 * st.nextBump + 1 by omega)
      · exact Nat.le_succ _
    · rw [if_neg hlt]
      by_cases h45 : st.nextCode = 4095
      · rw [if_pos h45]
        exact ⟨⟨hp, Or.inr (by omega)⟩, Nat.le_refl _⟩
      · exfalso
        unfold pairsOk at hp
        rcases hp with ⟨-, hb⟩ | ⟨-, hb⟩ | ⟨-, hb⟩ | ⟨-, hb⟩ <;> omega
  · rw [if_neg he]
    refine ⟨⟨hp, ?_⟩, Nat.le_refl _⟩
    rcases h2 with h | h
    · exact Or.inl (by omega)
    · exact Or.inr h

theorem v3_step_inv {prd : Bool} {bpr : Nat} {st : V3.St} {input : List Nat}
    {st' : V3.St} {rest : List Nat} (h : WidthInv st)
    (hs : V3.step prd bpr st input = .cont st' rest) :
    WidthInv st' ∧
      (V3.readCode st input ≠ some 256 → st.codeBits ≤ st'.codeBits) ∧
      (V3.readCode st input = some 256 → st'.codeBits = 9) := by
  cases input with
  | nil => exact absurd hs (by simp [V3.step])
  | cons b in1 =>
    simp only [V3.step] at hs
    cases hgc : V3.getNextCode st.codeBits st.mask st.iBuf st.nBits b in1 with
    | none =>
      rw [hgc] at hs
      have hs2 : V3.StepOut.stop ⟨st.out, .overread, false⟩ = .cont st' rest := hs
      exact absurd hs2 (by simp)
    | some q =>
      obtain ⟨code, iBuf1, nBits1, rest1⟩ := q
      rw [hgc] at hs
      have hs2 : V3.processCode prd bpr { st with iBuf := iBuf1, nBits := nBits1 } code rest1
          = V3.StepOut.cont st' rest := hs
      have hrc : V3.readCode st (b :: in1) = some code := by
        show Option.map (fun x => x.1)
          (V3.getNextCode st.codeBits st.mask st.iBuf st.nBits b in1) = some code
        rw [hgc]
        rfl
      rw [hrc]
      unfold V3.processCode at hs2
      by_cases h256 : code = 256
      · rw [if_pos h256] at hs2
        cases hs2
        refine ⟨⟨Or.inl ⟨rfl, rfl⟩, Or.inl (show (258 : Nat) < 511 by omega)⟩,
          fun hne => absurd (by rw [h256]) hne, fun _ => rfl⟩
      · rw [if_neg h256] at hs2
        by_cases h257 : code = 257
        · rw [if_pos h257] at hs2
          exact absurd hs2 (by simp)
        · rw [if_neg h257] at hs2
          cases hs2
          obtain ⟨r1, r2, r3, r4⟩ :=
            v3_resolveSt_fields prd bpr { st with iBuf := iBuf1, nBits := nBits1 } code
          have hpairs : pairsOk (V3.resolveSt prd bpr
              { st with iBuf := iBuf1, nBits := nBits1 } code) := by
            unfold pairsOk
            rw [r1, r2]
            exact h.1
          have hnb : ({ st with iBuf := iBuf1, nBits := nBits1 } : V3.St).nextBump
              = st.nextBump := rfl
          have hnc : ({ st with iBuf := iBuf1, nBits := nBits1 } : V3.St).nextCode
              = st.nextCode := rfl
          have hboth : (V3.resolveSt prd bpr
              { st with iBuf := iBuf1, nBits := nBits1 } code).nextCode ≤
              (V3.resolveSt prd bpr
                { st with iBuf := iBuf1, nBits := nBits1 } code).nextBump ∨
              (V3.resolveSt prd bpr
                { st with iBuf := iBuf1, nBits := nBits1 } code).nextBump = 4095 := by
            rw [r2]
            rcases h.2 with hlt | h45
            · exact Or.inl (by omega)
            · exact Or.inr (by rw [hnb]; exact h45)
          obtain ⟨hi, hmono⟩ := v3_bump_inv _ hpairs hboth
          refine ⟨hi, fun _ => ?_, fun heq => absurd (Option.some.inj heq) h256⟩
          calc st.codeBits
              = (V3.resolveSt prd bpr
                  { st with iBuf := iBuf1, nBits := nBits1 } code).codeBits := by rw [r1]
            _ ≤ _ := hmono

theorem v3_init_inv : WidthInv V3.initSt :=
  ⟨Or.inl ⟨rfl, rfl⟩, Or.inl (by decide)⟩

theorem v3_reach_inv {prd : Bool} {bpr : Nat} {st : V3.St} {input : List Nat}
    (h : Reach prd bpr st input) : WidthInv st := by
  induction h with
  | init _ => exact v3_init_inv
  | next hr hs ih => exact (v3_step_inv ih hs).1

/-- C8: in the v3 decoder the code width starts at 9 bits, every
    reachable state keeps `codeBits` between 9 and 12, the width never
    decreases across a loop iteration whose extracted code is not
    ClearCode, and an iteration whose code is ClearCode resets the
    width to 9. -/
theorem claim_C8 :
    V3.initSt.codeBits = 9 ∧
    (∀ (prd : Bool) (bpr : Nat) (st : V3.St) (input : List Nat),
        Reach prd bpr st input → 9 ≤ st.codeBits ∧ st.codeBits ≤ 12) ∧
    (∀ (prd : Bool) (bpr : Nat) (st : V3.St) (input : List Nat) (st' : V3.St)
        (rest : List Nat),
        Reach prd bpr st input → V3.step prd bpr st input = .cont st' rest →
        V3.readCode st input ≠ some 256 → st.codeBits ≤ st'.codeBits) ∧
    (∀ (prd : Bool) (bpr : Nat) (st : V3.St) (input : List Nat) (st' : V3.St)
        (rest : List Nat),
        Reach prd bpr st input → V3.step prd bpr st input = .cont st' rest →
        V3.readCode st input = some 256 → st'.codeBits = 9) := by
  refine ⟨rfl, ?_, ?_, ?_⟩
  · intro prd bpr st input hr
    obtain ⟨hp, -⟩ := v3_reach_inv hr
    unfold pairsOk at hp
    rcases hp with ⟨hc, -⟩ | ⟨hc, -⟩ | ⟨hc, -⟩ | ⟨hc, -⟩ <;> omega
  · intro prd bpr st input st' rest hr hs hne
    exact (v3_step_inv (v3_reach_inv hr) hs).2.1 hne
  · intro prd bpr st input st' rest hr hs heq
    exact (v3_step_inv (v3_reach_inv hr) hs).2.2 heq

/-- Witness for C8: the initial state is reachable and its width lies
    in 9..12. -/
theorem claim_C8_witness :
    9 ≤ V3.initSt.codeBits ∧ V3.initSt.codeBits ≤ 12 :=
  claim_C8.2.1 false 2400 V3.initSt [] (Reach.init [])

theorem v3_getNextCode_append (codeBits mask iBuf nBits b : Nat) (in1 r : List Nat)
    {code i1 n1 : Nat} {rest : List Nat}
    (h : V3.getNextCode codeBits mask iBuf nBits b in1 = some (code, i1, n1, rest)) :
    V3.getNextCode codeBits mask iBuf nBits b (in1 ++ r) = some (code, i1, n1, rest ++ r) := by
  unfold V3.getNextCode at h ⊢
  by_cases h8 : nBits + 8 < codeBits
  · rw [if_pos h8] at h ⊢
    cases in1 with
    | nil => exact absurd h (by simp)
    | cons b2 in2 =>
      simp only [Option.some.injEq, Prod.mk.injEq] at h
      obtain ⟨h1, h2, h3, h4⟩ := h
      subst h1
      subst h2
      subst h3
      subst h4
      rfl
  · rw [if_neg h8] at h ⊢
    simp only [Option.some.injEq, Prod.mk.injEq] at h
    obtain ⟨h1, h2, h3, h4⟩ := h
    subst h1
    subst h2
    subst h3
    subst h4
    rfl

theorem v3_processCode_rest (prd : Bool) (bpr : Nat) (st : V3.St) (code : Nat) :
    (∃ stc, ∀ q : List Nat, V3.processCode prd bpr st code q = .cont stc q) ∨
    (∃ res : Result, res.reason = .eof ∧
      ∀ q : List Nat, V3.processCode prd bpr st code q = .stop res) := by
  by_cases h256 : code = 256
  · exact Or.inl ⟨_, fun q => by unfold V3.processCode; rw [if_pos h256]⟩
  · by_cases h257 : code = 257
    · exact Or.inr ⟨⟨st.out, .eof, false⟩, rfl,
        fun q => by unfold V3.processCode; rw [if_neg h256, if_pos h257]⟩
    · exact Or.inl ⟨_, fun q => by unfold V3.processCode; rw [if_neg h256, if_neg h257]⟩

theorem v3_step_append (prd : Bool) (bpr : Nat) (st : V3.St) (b : Nat) (p r : List Nat) :
    (∀ (st' : V3.St) (rest : List Nat), V3.step prd bpr st (b :: p) = .cont st' rest →
      V3.step prd bpr st (b :: (p ++ r)) = .cont st' (rest ++ r)) ∧
    (∀ res : Result, V3.step prd bpr st (b :: p) = .stop res → res.reason = .eof →
      V3.step prd bpr st (b :: (p ++ r)) = .stop res) := by
  simp only [V3.step]
  cases hgc : V3.getNextCode st.codeBits st.mask st.iBuf st.nBits b p with
  | none =>
    refine ⟨fun st' rest h => absurd h (by simp), fun res h hres => ?_⟩
    have h2 : (⟨st.out, .overread, false⟩ : Result) = res := by
      have h3 : V3.StepOut.stop ⟨st.out, .overread, false⟩ = .stop res := h
      cases h3
      rfl
    rw [← h2] at hres
    simp at hres
  | some q =>
    obtain ⟨code, i1, n1, rest0⟩ := q
    rw [v3_getNextCode_append st.codeBits st.mask st.iBuf st.nBits b p r hgc]
    rcases v3_processCode_rest prd bpr { st with iBuf := i1, nBits := n1 } code with
      ⟨stc, hstc⟩ | ⟨res0, hres0, hstp⟩
    · refine ⟨fun st' rest h => ?_, fun res h hres => ?_⟩
      · have h3 : V3.processCode prd bpr { st with iBuf := i1, nBits := n1 } code rest0
            = V3.StepOut.cont st' rest := h
        rw [hstc rest0] at h3
        cases h3
        show V3.processCode prd bpr { st with iBuf := i1, nBits := n1 } code (rest0 ++ r)
            = V3.StepOut.cont stc (rest0 ++ r)
        exact hstc (rest0 ++ r)
      · have h3 : V3.processCode prd bpr { st with iBuf := i1, nBits := n1 } code rest0
            = V3.StepOut.stop res := h
        rw [hstc rest0] at h3
        exact absurd h3 (by simp)
    · refine ⟨fun st' rest h => ?_, fun res h hres => ?_⟩
      · have h3 : V3.processCode prd bpr { st with iBuf := i1, nBits := n1 } code rest0
            = V3.StepOut.cont st' rest := h
        rw [hstp rest0] at h3
        exact absurd h3 (by simp)
      · have h3 : V3.processCode prd bpr { st with iBuf := i1, nBits := n1 } code rest0
            = V3.StepOut.stop res := h
        rw [hstp rest0] at h3
        cases h3
        show V3.processCode prd bpr { st with iBuf := i1, nBits := n1 } code (rest0 ++ r)
            = V3.StepOut.stop res0
        exact hstp (rest0 ++ r)

theorem v3_loop_eof_append (prd : Bool) (bpr : Nat) :
    ∀ (f1 : Nat) (st : V3.St) (p : List Nat) (res : Result),
      V3.loop prd bpr f1 st p = res → res.reason = .eof →
      ∀ (r : List Nat) (f2 : Nat), f1 ≤ f2 →
        V3.loop prd bpr f2 st (p ++ r) = res := by
  intro f1
  induction f1 with
  | zero =>
    intro st p res h hres
    rw [V3.loop] at h
    subst h
    simp at hres
  | succ f ih =>
    intro st p res h hres r f2 hf
    cases p with
    | nil =>
      rw [V3.loop] at h
      have h2 : (⟨st.out, .inputDone, false⟩ : Result) = res := by
        have hstep : V3.step prd bpr st [] = .stop ⟨st.out, .inputDone, false⟩ := rfl
        rw [hstep] at h
        cases h
        rfl
      rw [← h2] at hres
      simp at hres
    | cons b p1 =>
      rw [V3.loop] at h
      cases f2 with
      | zero => omega
      | succ g =>
        rw [List.cons_append, V3.loop]
        cases hstep : V3.step prd bpr st (b :: p1) with
        | stop res0 =>
          rw [hstep] at h
          cases h
          rw [(v3_step_append prd bpr st b p1 r).2 res0 hstep hres]
        | cont st1 rest =>
          rw [hstep] at h
          rw [(v3_step_append prd bpr st b p1 r).1 st1 rest hstep]
          exact ih st1 rest res h hres r g (by omega)

/-- C10: input bytes located after a code-aligned EOFCode never
    influence the result: when a decode of `p` terminates by reading
    EOFCode, decoding any extension of `p` returns the identical
    result (same output bytes, same byte count, same outcome) — the
    decoder returns immediately upon reading EOFCode and consumes no
    further input. -/
theorem claim_C10 : ∀ (prd : Bool) (bpr : Nat) (p o1 o2 r1 r2 : List Nat),
    (V3.decompressLZW prd bpr p o1).reason = .eof →
    V3.decompressLZW prd bpr (p ++ r1) o1 = V3.decompressLZW prd bpr p o2 ∧
    V3.decompressLZW prd bpr (p ++ r1) o1 = V3.decompressLZW prd bpr (p ++ r2) o2 := by
  intro prd bpr p o1 o2 r1 r2 h
  unfold V3.decompressLZW at h ⊢
  have h1 := v3_loop_eof_append prd bpr p.length V3.initSt p _ rfl h r1
    (p ++ r1).length (by rw [List.length_append]; exact Nat.le_add_right _ _)
  have h2 := v3_loop_eof_append prd bpr p.length V3.initSt p _ rfl h r2
    (p ++ r2).length (by rw [List.length_append]; exact Nat.le_add_right _ _)
  exact ⟨h1, by rw [h1, h2]⟩

/-- Witness for C10: the stream packing codes 65 'A', 257 (EOFCode)
    ends at EOFCode, and extending it with different junk suffixes
    leaves the decode result unchanged. -/
theorem claim_C10_witness :
    (V3.decompressLZW false 2400 [32, 192, 64] []).reason = .eof ∧
    V3.decompressLZW false 2400 ([32, 192, 64] ++ [255]) [] =
      V3.decompressLZW false 2400 ([32, 192, 64] ++ [9, 9]) [] :=
  ⟨by decide, (claim_C10 false 2400 [32, 192, 64] [] [] [255] [9, 9] (by decide)).2⟩

end TiffLzw
